import Mathlib

/-!
Verification of the close-contacts descriptor engine of
`oddt/scoring/descriptors/__init__.py`.

The embedding below translates the source faithfully:

* an atom table row is a record of rational 3-D coordinates, an integer
  atomic number, a Sybyl-style atom-type label and the four boolean
  chemistry flags consulted by the classifier;
* interatomic Euclidean distances are represented by their squares
  (rationals), and every comparison of a distance `d = sqrt q` against a
  bound `c` is encoded exactly as `0 ≤ c ∧ q ≤ c * c`, which is equivalent
  for the nonnegative radicand `q`;
* `atoms_by_type` returns `Except`, mirroring the `ValueError`s of the
  source; dictionaries are association lists over de-duplicated keys
  (Python's `set(types)` iteration order is unspecified, so any
  de-duplication order is a faithful model);
* `close_contacts_descriptor` state is the record `CCConfig` produced by
  `ccInit` (the constructor), and `build` / `buildRow` mirror the
  per-ligand loop including the `within_cutoff` protein reduction, the
  numpy broadcasting of the single-cutoff branch, and the row flatten.
-/

deriving instance DecidableEq for Except

/-- One row of `Molecule.atom_dict`: the fields the descriptor code reads. -/
structure Atom where
  x : ℚ
  y : ℚ
  z : ℚ
  atomicnum : ℤ
  atomtype : String
  isaromatic : Bool
  isdonor : Bool
  isacceptor : Bool
  isdonorh : Bool
deriving DecidableEq, Repr

/-- A type key as passed in `ligand_types` / `protein_types`: either an
atomic number (mode `atomic_nums`) or a string tag (the two other modes). -/
inductive TypeKey where
  | num (n : ℤ)
  | str (s : String)
deriving DecidableEq, Repr

/-- Squared Euclidean distance between two atoms (`scipy.cdist` squared). -/
def sqDist (a b : Atom) : ℚ :=
  (a.x - b.x) * (a.x - b.x) + (a.y - b.y) * (a.y - b.y) + (a.z - b.z) * (a.z - b.z)

/-- Comparison `sqrt q ≤ c`, expressed on the squared distance `q` (with `q ≥ 0`):
a nonnegative distance is at most `c` iff `c` is nonnegative and `q ≤ c * c`. -/
def distLEb (q c : ℚ) : Bool :=
  decide (0 ≤ c ∧ q ≤ c * c)

/-- The squared distances of all (protein atom, ligand atom) pairs of two
sub-tables: the entries of the `cdist` matrix of the source. -/
def allSq (pAtoms lAtoms : List Atom) : List ℚ :=
  pAtoms.flatMap (fun pa => lAtoms.map (fun la => sqDist pa la))

/-- The AD4 force-field vocabulary, as the literal table of the source
(`ad4_to_atomicnum`). -/
def ad4List : List (String × ℤ) :=
  [("HD", 1), ("C", 6), ("CD", 6), ("A", 6), ("N", 7), ("NA", 7),
   ("OA", 8), ("F", 9), ("MG", 12), ("P", 15), ("SA", 16), ("S", 16),
   ("CL", 17), ("CA", 20), ("MN", 25), ("FE", 26), ("CU", 29), ("ZN", 30),
   ("BR", 35), ("I", 53)]

/-- Lookup in the `ad4_to_atomicnum` table. -/
def ad4_to_atomicnum (s : String) : Option ℤ :=
  ad4List.lookup s

/-- The per-atom constraint of the AD4 branch of `atoms_by_type` for an
(uppercased) key `t` mapping to atomic number `z`. -/
def ad4Match (t : String) (z : ℤ) (a : Atom) : Bool :=
  (a.atomicnum == z) &&
    (if t = "HD" then a.isdonorh
     else if t = "C" then !a.isaromatic
     else if t = "CD" then !a.isdonor
     else if t = "A" then a.isaromatic
     else if t = "N" ∨ t = "S" then !a.isacceptor
     else if t = "NA" ∨ t = "OA" ∨ t = "SA" then a.isacceptor
     else true)

/-- Per-atom match in mode `atomic_nums` (non-numeric keys match nothing). -/
def anumMatch (t : TypeKey) (a : Atom) : Bool :=
  match t with
  | .num n => a.atomicnum == n
  | .str _ => false

/-- Per-atom match in mode `atom_types_sybyl`. -/
def sybylMatch (t : TypeKey) (a : Atom) : Bool :=
  match t with
  | .num _ => false
  | .str s => a.atomtype == s

/-- Normalization `[t.upper() for t in types]`: every key must be a string (an integer
key would raise `AttributeError` in the source), and is uppercased. -/
def upperAll : List TypeKey → Option (List String)
  | [] => some []
  | .num _ :: _ => none
  | .str s :: ts =>
      match upperAll ts with
      | none => none
      | some us => some (s.toUpper :: us)

/-- The AD4 classification loop: walks the (de-duplicated, uppercased)
keys, raising on the first key outside the vocabulary, otherwise binding
each key to the constrained sub-table. -/
def ad4Build (tbl : List Atom) : List String → Except String (List (TypeKey × List Atom))
  | [] => .ok []
  | t :: ts =>
      match ad4_to_atomicnum t with
      | none => .error ("Unsopported atom type: " ++ t)
      | some z =>
          match ad4Build tbl ts with
          | .error e => .error e
          | .ok rest => .ok ((.str t, tbl.filter (ad4Match t z)) :: rest)

/-- Model of `atoms_by_type(atom_dict, types, mode)`: returns the dictionary from
each distinct requested key to the matching sub-table, or the
`ValueError` the source raises. -/
def atoms_by_type (tbl : List Atom) (types : List TypeKey) (mode : String) :
    Except String (List (TypeKey × List Atom)) :=
  if mode = "atomic_nums" then
    .ok (types.dedup.map (fun t => (t, tbl.filter (anumMatch t))))
  else if mode = "atom_types_sybyl" then
    .ok (types.dedup.map (fun t => (t, tbl.filter (sybylMatch t))))
  else if mode = "atom_types_ad4" then
    match upperAll types with
    | none => .error "AttributeError"
    | some us => ad4Build tbl us.dedup
  else
    .error ("Unsopported mode: " ++ mode)

/-- The cutoff argument as passed to the constructor: a scalar, a flat
boundary list, or an explicit interval table. -/
inductive CutoffSpec where
  | scalar (c : ℚ)
  | flat (l : List ℚ)
  | table (l : List (ℚ × ℚ))
deriving DecidableEq, Repr

/-- Value of `self.cutoff` after `__init__`: either a one-element 1-D array (from a
scalar or a singleton flat list) or an `(N, 2)` interval table. -/
inductive CutoffArr where
  | one1d (c : ℚ)
  | rows (l : List (ℚ × ℚ))
deriving DecidableEq, Repr

/-- Expansion `np.atleast_1d` plus the flat-list rewriting of `__init__`:
a flat list of more than one boundary becomes the table of consecutive
pairs `zip(cutoff[:-1], cutoff[1:])`. -/
def expandCutoff : CutoffSpec → CutoffArr
  | .scalar c => .one1d c
  | .flat [] => .rows []
  | .flat [c] => .one1d c
  | .flat l => .rows (l.zip l.tail)
  | .table l => .rows l

/-- Length `len(self.cutoff)` (equal to `self.cutoff.shape[0]`). -/
def cutLen : CutoffArr → ℕ
  | .one1d _ => 1
  | .rows l => l.length

/-- All scalar entries of the cutoff array (flattened). -/
def cutEntries : CutoffArr → List ℚ
  | .one1d c => [c]
  | .rows l => l.flatMap (fun r => [r.1, r.2])

/-- First element, the default only reachable on an empty array. -/
def listMax0 : List ℚ → ℚ
  | [] => 0
  | x :: xs => xs.foldl max x

/-- Maximum entry `self.cutoff.max()`. -/
def cutoffMax (cut : CutoffArr) : ℚ :=
  listMax0 (cutEntries cut)

/-- The per-type-pair flattened contribution of the descriptor loop, as a
function of the list of squared pair distances: with more than one shell,
one count per `(lower, upper]` interval; otherwise `(d <= self.cutoff).sum()`,
where broadcasting compares every distance against every entry of the
(length-one) cutoff array. -/
def pairCountsQ (cut : CutoffArr) (qs : List ℚ) : List ℕ :=
  if 1 < cutLen cut then
    match cut with
    | .one1d _ => []
    | .rows rs =>
        rs.map (fun r => qs.countP (fun q => !distLEb q r.1 && distLEb q r.2))
  else
    [(qs.map (fun q => (cutEntries cut).countP (fun e => distLEb q e))).sum]

/-- The per-type-pair flattened contribution of the descriptor loop. -/
def pairCounts (cut : CutoffArr) (pAtoms lAtoms : List Atom) : List ℕ :=
  pairCountsQ cut (allSq pAtoms lAtoms)

/-- The state of a `close_contacts_descriptor` instance. -/
structure CCConfig where
  protein : Option (List Atom)
  cutoff : CutoffArr
  original_cutoff : CutoffSpec
  mode : String
  ligand_types : List TypeKey
  protein_types : List TypeKey
  aligned_pairs : Bool
  titles : List String
deriving DecidableEq, Repr

/-- String form of a type key (`str(p)` on the original key). -/
def keyStr : TypeKey → String
  | .num n => toString n
  | .str s => s

/-- String form of a cutoff boundary in a title. -/
def qStr (q : ℚ) : String := toString q

/-- The `self.titles` computation of `__init__`: protein type outer,
ligand type inner; the shell suffix appears only when the cutoff array
has more than one row. -/
def mkTitles (lt pt : List TypeKey) (cut : CutoffArr) : List String :=
  if cutLen cut = 1 then
    pt.flatMap (fun p => lt.map (fun l => keyStr p ++ "." ++ keyStr l))
  else
    match cut with
    | .one1d _ => []
    | .rows rs =>
        pt.flatMap (fun p => lt.flatMap (fun l =>
          rs.map (fun r =>
            keyStr p ++ "." ++ keyStr l ++ "_" ++ qStr r.1 ++ "-" ++ qStr r.2)))

/-- Defaulting `protein_types if protein_types else ligand_types` (Python falsiness:
`None` and the empty list both fall back to `ligand_types`). -/
def resolveProtTypes (pt : Option (List TypeKey)) (lt : List TypeKey) : List TypeKey :=
  match pt with
  | none => lt
  | some [] => lt
  | some l => l

/-- Constructor `close_contacts_descriptor.__init__`. -/
def ccInit (protein : Option (List Atom)) (cutoff : CutoffSpec) (mode : String)
    (ligand_types : List TypeKey) (protein_types : Option (List TypeKey))
    (aligned_pairs : Bool) : CCConfig :=
  let cut := expandCutoff cutoff
  let pt := resolveProtTypes protein_types ligand_types
  { protein := protein
    cutoff := cut
    original_cutoff := cutoff
    mode := mode
    ligand_types := ligand_types
    protein_types := pt
    aligned_pairs := aligned_pairs
    titles := mkTitles ligand_types pt cut }

/-- Accessor `close_contacts_descriptor.__len__`. -/
def lenDescriptor (cfg : CCConfig) : ℕ :=
  if cfg.aligned_pairs then
    cfg.ligand_types.length * cutLen cfg.cutoff
  else
    cfg.ligand_types.length * cfg.protein_types.length * cutLen cfg.cutoff

/-- The argument tuple of `close_contacts_descriptor.__reduce__`. -/
structure ReduceArgs where
  protein : Option (List Atom)
  cutoff : CutoffSpec
  mode : String
  ligand_types : List TypeKey
  protein_types : Option (List TypeKey)
  aligned_pairs : Bool
deriving DecidableEq, Repr

/-- Serialization `close_contacts_descriptor.__reduce__`: note the live protein
reference is carried in the tuple. -/
def ccReduce (cfg : CCConfig) : ReduceArgs :=
  { protein := cfg.protein
    cutoff := cfg.original_cutoff
    mode := cfg.mode
    ligand_types := cfg.ligand_types
    protein_types := some cfg.protein_types
    aligned_pairs := cfg.aligned_pairs }

/-- Reconstruction from the `__reduce__` tuple: the constructor applied
to the carried arguments. -/
def ccReconstruct (r : ReduceArgs) : CCConfig :=
  ccInit r.protein r.cutoff r.mode r.ligand_types r.protein_types r.aligned_pairs

/-- The pair list of `build`: element-wise `zip` when `aligned_pairs`,
else the cross product with the ligand type as the outer loop. -/
def buildPairs (cfg : CCConfig) : List (TypeKey × TypeKey) :=
  if cfg.aligned_pairs then
    cfg.ligand_types.zip cfg.protein_types
  else
    cfg.ligand_types.flatMap (fun l => cfg.protein_types.map (fun p => (l, p)))

/-- Membership in `within_cutoff` of one protein atom: its distance to some
ligand atom is at most `self.cutoff.max()`. -/
def inRangeb (cut : CutoffArr) (lig : List Atom) (pa : Atom) : Bool :=
  lig.any (fun la => distLEb (sqDist pa la) (cutoffMax cut))

/-- The reduced protein neighborhood: rows of the protein table whose
distance to some ligand atom is at most `self.cutoff.max()`. -/
def localProtein (cut : CutoffArr) (prot lig : List Atom) : List Atom :=
  prot.filter (inRangeb cut lig)

/-- Guard for a missing object: reading an attribute of `None` raises. -/
def optToExcept : Option α → String → Except String α
  | none, e => .error e
  | some a, _ => .ok a

/-- Sequencing of fallible steps: the first raised error propagates. -/
def bindE : Except String α → (α → Except String β) → Except String β
  | .error e, _ => .error e
  | .ok a, f => f a

/-- Error-propagating map over a list (the per-pair loop of `build`). -/
def mapE (f : α → Except String β) : List α → Except String (List β)
  | [] => .ok []
  | x :: xs =>
      match f x with
      | .error e => .error e
      | .ok y =>
          match mapE f xs with
          | .error e => .error e
          | .ok ys => .ok (y :: ys)

/-- One iteration of the per-pair loop: dictionary lookups (a missing key
is a `KeyError`) followed by the distance count. -/
def pairStep (cut : CutoffArr) (protDict molDict : List (TypeKey × List Atom))
    (mp : TypeKey × TypeKey) : Except String (List ℕ) :=
  match protDict.lookup mp.2 with
  | none => .error "KeyError"
  | some pAtoms =>
      match molDict.lookup mp.1 with
      | none => .error "KeyError"
      | some lAtoms => .ok (pairCounts cut pAtoms lAtoms)

/-- The per-ligand body of `close_contacts_descriptor.build`: classify the
ligand, reduce and classify the protein, loop over the pairs, flatten. -/
def buildRow (cfg : CCConfig) (lig : List Atom) : Except String (List ℕ) :=
  bindE (optToExcept cfg.protein "AttributeError") (fun prot =>
  bindE (atoms_by_type lig cfg.ligand_types cfg.mode) (fun molDict =>
  bindE (atoms_by_type (localProtein cfg.cutoff prot lig) cfg.protein_types cfg.mode)
    (fun protDict =>
  bindE (mapE (pairStep cfg.cutoff protDict molDict) (buildPairs cfg)) (fun counts =>
  .ok counts.flatten))))

/-- Batch `close_contacts_descriptor.build`: one row per ligand,
stacked in input order (`np.vstack` of an empty batch raises). -/
def ccBuild (cfg : CCConfig) (ligs : List (List Atom)) :
    Except String (List (List ℕ)) :=
  match ligs with
  | [] => .error "ValueError"
  | _ => mapE (buildRow cfg) ligs

/-- Following the spec's words for the comparison in C5: the same
computation, except that protein classification runs on the full protein
atom table instead of the reduced neighborhood. -/
def buildRowFullClassify (cfg : CCConfig) (lig : List Atom) : Except String (List ℕ) :=
  bindE (optToExcept cfg.protein "AttributeError") (fun prot =>
  bindE (atoms_by_type lig cfg.ligand_types cfg.mode) (fun molDict =>
  bindE (atoms_by_type prot cfg.protein_types cfg.mode) (fun protDict =>
  bindE (mapE (pairStep cfg.cutoff protDict molDict) (buildPairs cfg)) (fun counts =>
  .ok counts.flatten))))

/-- Following the claim's words for C2: the same per-ligand computation,
but with the cross-product pair list enumerated protein-type outer,
ligand-type inner. -/
def buildRowProteinOuter (cfg : CCConfig) (lig : List Atom) : Except String (List ℕ) :=
  bindE (optToExcept cfg.protein "AttributeError") (fun prot =>
  bindE (atoms_by_type lig cfg.ligand_types cfg.mode) (fun molDict =>
  bindE (atoms_by_type (localProtein cfg.cutoff prot lig) cfg.protein_types cfg.mode)
    (fun protDict =>
  bindE (mapE (pairStep cfg.cutoff protDict molDict)
      (cfg.protein_types.flatMap (fun p => cfg.ligand_types.map (fun l => (l, p)))))
    (fun counts =>
  .ok counts.flatten))))

/-- A well-formed post-expansion cutoff array: a scalar, or a nonempty
interval table (the shapes the source's later arithmetic accepts). -/
def cutoffValid : CutoffArr → Prop
  | .one1d _ => True
  | .rows l => l ≠ []

/-! ### Concrete inputs used by closed theorems -/

/-- A carbon atom at the origin. -/
def atomC000 : Atom :=
  { x := 0, y := 0, z := 0, atomicnum := 6, atomtype := "C.3",
    isaromatic := false, isdonor := false, isacceptor := false, isdonorh := false }

/-- A nitrogen atom at `(0, 0, 5)`. -/
def atomN005 : Atom :=
  { atomC000 with z := 5, atomicnum := 7, atomtype := "N.3" }

/-- A carbon atom at `(0, 0, 1)`. -/
def atomC001 : Atom :=
  { atomC000 with z := 1 }

/-- A nitrogen atom at `(0, 0, 2)`. -/
def atomN002 : Atom :=
  { atomC000 with z := 2, atomicnum := 7, atomtype := "N.3" }

/-- A nitrogen atom far away at `(10, 10, 10)`. -/
def atomN10 : Atom :=
  { atomC000 with x := 10, y := 10, z := 10, atomicnum := 7, atomtype := "N.3" }

/-- The configuration of the spec's concrete scenario (C6). -/
def cfgScenario : CCConfig :=
  ccInit (some [atomC000, atomN005]) (.scalar 4) "atomic_nums"
    [.num 6] (some [.num 6, .num 7]) false

/-- A cross-product configuration with two ligand and two protein types. -/
def cfgTwoByTwo : CCConfig :=
  ccInit (some [atomC000, atomN10]) (.scalar 4) "atomic_nums"
    [.num 6, .num 7] (some [.num 6, .num 7]) false

/-- An aligned-pairs configuration whose type lists have unequal length. -/
def cfgAlignedUneq : CCConfig :=
  ccInit (some [atomC000]) (.scalar 4) "atomic_nums"
    [.num 6, .num 7] (some [.num 6]) true

/-- A single-scalar-cutoff configuration over a one-atom protein. -/
def cfgScalar4 : CCConfig :=
  ccInit (some [atomC000]) (.scalar 4) "atomic_nums" [.num 6] none false

/-- The same configuration with the cutoff split into shells `(0,2],(2,4]`. -/
def cfgShells024 : CCConfig :=
  ccInit (some [atomC000]) (.flat [0, 2, 4]) "atomic_nums" [.num 6] none false

/-- A flat two-element cutoff list `[0, 4]` over the same protein. -/
def cfgShells2Flat : CCConfig :=
  ccInit (some [atomC000]) (.flat [0, 4]) "atomic_nums" [.num 6] none false

/-! ### Basic facts about distances and cutoff bounds -/

theorem sqDist_nonneg (a b : Atom) : 0 ≤ sqDist a b := by
  unfold sqDist
  have h1 := mul_self_nonneg (a.x - b.x)
  have h2 := mul_self_nonneg (a.y - b.y)
  have h3 := mul_self_nonneg (a.z - b.z)
  linarith

theorem distLEb_mono {q c c2 : ℚ} (h : c ≤ c2) (hq : distLEb q c = true) :
    distLEb q c2 = true := by
  simp only [distLEb, decide_eq_true_eq] at *
  obtain ⟨hc, hle⟩ := hq
  refine ⟨le_trans hc h, le_trans hle ?_⟩
  exact mul_le_mul h h hc (le_trans hc h)

theorem distLEb_false_of_le {q c m : ℚ} (h : c ≤ m)
    (hm : distLEb q m = false) : distLEb q c = false := by
  by_contra hc
  rw [Bool.not_eq_false] at hc
  rw [distLEb_mono h hc] at hm
  exact Bool.noConfusion hm

theorem le_foldl_max_init : ∀ (l : List ℚ) (a : ℚ), a ≤ l.foldl max a := by
  intro l
  induction l with
  | nil => intro a; exact le_rfl
  | cons x xs ih =>
      intro a
      exact le_trans (le_max_left a x) (ih (max a x))

theorem le_foldl_max_of_mem {x : ℚ} :
    ∀ {l : List ℚ}, x ∈ l → ∀ a : ℚ, x ≤ l.foldl max a := by
  intro l
  induction l with
  | nil => intro h; cases h
  | cons y ys ih =>
      intro h a
      rcases List.mem_cons.mp h with h | h
      · subst h
        exact le_trans (le_max_right a x) (le_foldl_max_init ys (max a x))
      · exact ih h (max a y)

theorem foldl_max_mem : ∀ (l : List ℚ) (a : ℚ), l.foldl max a = a ∨ l.foldl max a ∈ l := by
  intro l
  induction l with
  | nil => intro a; exact Or.inl rfl
  | cons x xs ih =>
      intro a
      rcases ih (max a x) with h | h
      · rcases max_choice a x with hm | hm
        · exact Or.inl (by simp only [List.foldl_cons]; rw [h, hm])
        · refine Or.inr (List.mem_cons.mpr (Or.inl ?_))
          simp only [List.foldl_cons]
          rw [h, hm]
      · exact Or.inr (List.mem_cons.mpr (Or.inr (by simpa using h)))

theorem le_listMax0 {x : ℚ} {l : List ℚ} (hx : x ∈ l) : x ≤ listMax0 l := by
  match l with
  | [] => cases hx
  | y :: ys =>
      simp only [listMax0]
      rcases List.mem_cons.mp hx with h | h
      · subst h; exact le_foldl_max_init ys x
      · exact le_foldl_max_of_mem h y

theorem listMax0_mem {l : List ℚ} (hl : l ≠ []) : listMax0 l ∈ l := by
  match l with
  | [] => exact absurd rfl hl
  | y :: ys =>
      simp only [listMax0]
      rcases foldl_max_mem ys y with h | h
      · rw [h]; exact List.mem_cons_self _ _
      · exact List.mem_cons.mpr (Or.inr h)

theorem cutEntries_le_max {cut : CutoffArr} {e : ℚ} (he : e ∈ cutEntries cut) :
    e ≤ cutoffMax cut :=
  le_listMax0 he

/-! ### Facts about the error-propagating map -/

theorem mapE_ok_length {f : α → Except String β} :
    ∀ {l : List α} {ys : List β}, mapE f l = .ok ys → ys.length = l.length := by
  intro l
  induction l with
  | nil => intro ys h; simp only [mapE] at h; cases h; rfl
  | cons x xs ih =>
      intro ys h
      simp only [mapE] at h
      cases hfx : f x with
      | error e => rw [hfx] at h; cases h
      | ok y =>
          rw [hfx] at h
          cases hxs : mapE f xs with
          | error e => rw [hxs] at h; cases h
          | ok zs =>
              rw [hxs] at h
              cases h
              simp [ih hxs]

theorem mapE_ok_mem {f : α → Except String β} :
    ∀ {l : List α} {ys : List β}, mapE f l = .ok ys →
      ∀ y ∈ ys, ∃ x ∈ l, f x = .ok y := by
  intro l
  induction l with
  | nil => intro ys h; simp only [mapE] at h; cases h; intro y hy; cases hy
  | cons x xs ih =>
      intro ys h
      simp only [mapE] at h
      cases hfx : f x with
      | error e => rw [hfx] at h; cases h
      | ok y0 =>
          rw [hfx] at h
          cases hxs : mapE f xs with
          | error e => rw [hxs] at h; cases h
          | ok zs =>
              rw [hxs] at h
              cases h
              intro y hy
              rcases List.mem_cons.mp hy with hy | hy
              · exact ⟨x, List.mem_cons_self _ _, by rw [hfx, hy]⟩
              · obtain ⟨x2, hx2, hfx2⟩ := ih hxs y hy
                exact ⟨x2, List.mem_cons.mpr (Or.inr hx2), hfx2⟩

theorem mapE_ok_get {f : α → Except String β} :
    ∀ {l : List α} {ys : List β}, mapE f l = .ok ys →
      ∀ {n : ℕ} {x : α}, l[n]? = some x → ∃ y, ys[n]? = some y ∧ f x = .ok y := by
  intro l
  induction l with
  | nil => intro ys h n x hx; simp at hx
  | cons a xs ih =>
      intro ys h n x hx
      simp only [mapE] at h
      cases hfa : f a with
      | error e => rw [hfa] at h; cases h
      | ok y0 =>
          rw [hfa] at h
          cases hxs : mapE f xs with
          | error e => rw [hxs] at h; cases h
          | ok zs =>
              rw [hxs] at h
              cases h
              match n with
              | 0 =>
                  rw [List.getElem?_cons_zero] at hx
                  cases hx
                  exact ⟨y0, List.getElem?_cons_zero, hfa⟩
              | n + 1 =>
                  rw [List.getElem?_cons_succ] at hx
                  obtain ⟨y, hy, hf⟩ := ih hxs hx
                  exact ⟨y, by rw [List.getElem?_cons_succ]; exact hy, hf⟩

theorem mapE_congr {f g : α → Except String β} :
    ∀ {l : List α}, (∀ x ∈ l, f x = g x) → mapE f l = mapE g l := by
  intro l
  induction l with
  | nil => intro _; rfl
  | cons x xs ih =>
      intro h
      simp only [mapE]
      rw [h x (List.mem_cons_self _ _), ih (fun a ha => h a (List.mem_cons.mpr (Or.inr ha)))]

theorem mapE_eq_map {f : α → Except String β} {g : α → β} :
    ∀ {l : List α}, (∀ x ∈ l, f x = .ok (g x)) → mapE f l = .ok (l.map g) := by
  intro l
  induction l with
  | nil => intro _; rfl
  | cons x xs ih =>
      intro h
      simp only [mapE]
      rw [h x (List.mem_cons_self _ _), ih (fun a ha => h a (List.mem_cons.mpr (Or.inr ha)))]
      simp

theorem mapE_ok_ok_rel {f g : α → Except String β} {R : β → β → Prop} :
    ∀ {l : List α} {ys zs : List β}, mapE f l = .ok ys → mapE g l = .ok zs →
      (∀ x ∈ l, ∀ y z, f x = .ok y → g x = .ok z → R y z) →
      List.Forall₂ R ys zs := by
  intro l
  induction l with
  | nil =>
      intro ys zs hy hz _
      simp only [mapE] at hy hz; cases hy; cases hz
      exact List.Forall₂.nil
  | cons x xs ih =>
      intro ys zs hy hz hr
      simp only [mapE] at hy hz
      cases hfx : f x with
      | error e => rw [hfx] at hy; cases hy
      | ok y0 =>
          rw [hfx] at hy
          cases hfxs : mapE f xs with
          | error e => rw [hfxs] at hy; cases hy
          | ok ys0 =>
              rw [hfxs] at hy
              cases hy
              cases hgx : g x with
              | error e => rw [hgx] at hz; cases hz
              | ok z0 =>
                  rw [hgx] at hz
                  cases hgxs : mapE g xs with
                  | error e => rw [hgxs] at hz; cases hz
                  | ok zs0 =>
                      rw [hgxs] at hz
                      cases hz
                      exact List.Forall₂.cons
                        (hr x (List.mem_cons_self _ _) y0 z0 hfx hgx)
                        (ih hfxs hgxs
                          (fun a ha => hr a (List.mem_cons.mpr (Or.inr ha))))

/-! ### Indexing and length facts for nested enumerations -/

theorem length_flatMap_product {A : List α} {B : List β} {f : α → β → γ} :
    (A.flatMap (fun a => B.map (f a))).length = A.length * B.length := by
  induction A with
  | nil => simp
  | cons x xs ih =>
      simp only [List.flatMap_cons, List.length_append, List.length_map, ih,
        List.length_cons]
      ring

theorem flatten_length_uniform {L : List (List α)} {k : ℕ}
    (h : ∀ b ∈ L, b.length = k) : L.flatten.length = L.length * k := by
  induction L with
  | nil => simp
  | cons b bs ih =>
      simp only [List.flatten_cons, List.length_append,
        h b (List.mem_cons_self _ _), ih (fun x hx => h x (List.mem_cons.mpr (Or.inr hx))),
        List.length_cons]
      ring

theorem flatMap_uniform_get {g : α → List γ} {N : ℕ}
    (hN : ∀ a2, (g a2).length = N) :
    ∀ {A : List α} {i r : ℕ} {a : α}, r < N → A[i]? = some a →
      (A.flatMap g)[i * N + r]? = (g a)[r]? := by
  intro A
  induction A with
  | nil => intro i r a _ ha; simp at ha
  | cons x xs ih =>
      intro i r a hr ha
      simp only [List.flatMap_cons]
      match i with
      | 0 =>
          rw [List.getElem?_cons_zero] at ha
          cases ha
          rw [Nat.zero_mul, Nat.zero_add]
          exact List.getElem?_append_left (by rw [hN x]; exact hr)
      | i + 1 =>
          rw [List.getElem?_cons_succ] at ha
          have hlen : (g x).length ≤ (i + 1) * N + r := by
            rw [hN x]
            calc N = 1 * N := (Nat.one_mul N).symm
            _ ≤ (i + 1) * N := Nat.mul_le_mul_right N (by omega)
            _ ≤ (i + 1) * N + r := Nat.le_add_right _ _
          rw [List.getElem?_append_right hlen, hN x]
          have : (i + 1) * N + r - N = i * N + r := by
            have : (i + 1) * N = i * N + N := by ring
            omega
          rw [this]
          exact ih hr ha

theorem flatten_uniform_get {L : List (List γ)} {N : ℕ}
    (hN : ∀ b ∈ L, b.length = N) {i r : ℕ} {b : List γ} (hr : r < N)
    (hb : L[i]? = some b) : L.flatten[i * N + r]? = b[r]? := by
  induction L generalizing i with
  | nil => simp at hb
  | cons c cs ih =>
      simp only [List.flatten_cons]
      match i with
      | 0 =>
          rw [List.getElem?_cons_zero] at hb
          injection hb with hcb
          subst hcb
          rw [Nat.zero_mul, Nat.zero_add]
          exact List.getElem?_append_left
            (by rw [hN c (List.mem_cons_self _ _)]; exact hr)
      | i + 1 =>
          rw [List.getElem?_cons_succ] at hb
          have hcN : c.length = N := hN c (List.mem_cons_self _ _)
          have hlen : c.length ≤ (i + 1) * N + r := by
            rw [hcN]
            calc N = 1 * N := (Nat.one_mul N).symm
            _ ≤ (i + 1) * N := Nat.mul_le_mul_right N (by omega)
            _ ≤ (i + 1) * N + r := Nat.le_add_right _ _
          rw [List.getElem?_append_right hlen, hcN]
          have heq : (i + 1) * N + r - N = i * N + r := by
            have : (i + 1) * N = i * N + N := by ring
            omega
          rw [heq]
          exact ih (fun x hx => hN x (List.mem_cons.mpr (Or.inr hx))) hb

/-! ### Association-list lookup facts -/

theorem lookup_map_self [DecidableEq α] {f : α → β} :
    ∀ {keys : List α} {k : α}, k ∈ keys →
      List.lookup k (keys.map (fun t => (t, f t))) = some (f k) := by
  intro keys
  induction keys with
  | nil => intro k hk; cases hk
  | cons t ts ih =>
      intro k hk
      simp only [List.map_cons, List.lookup]
      by_cases h : k = t
      · subst h
        simp
      · have hbe : (k == t) = false := by simpa using h
        rw [hbe]
        exact ih (by rcases List.mem_cons.mp hk with h2 | h2; exact absurd h2 h; exact h2)

theorem lookup_map_snd [DecidableEq α] {g : β → γ} :
    ∀ (kps : List (α × β)) (k : α),
      List.lookup k (kps.map (fun kp => (kp.1, g kp.2))) =
        (List.lookup k kps).map g := by
  intro kps
  induction kps with
  | nil => intro k; rfl
  | cons p ps ih =>
      intro k
      simp only [List.map_cons, List.lookup]
      by_cases h : k = p.1
      · subst h
        simp
      · have hbe : (k == p.1) = false := by simpa using h
        rw [hbe]
        exact ih k

/-! ### Facts about the per-pair counting kernel -/

theorem sum_map_ite_count {p : ℚ → Bool} :
    ∀ {qs : List ℚ}, (qs.map (fun q => if p q then 1 else 0)).sum = qs.countP p := by
  intro qs
  induction qs with
  | nil => rfl
  | cons q rest ih =>
      simp only [List.map_cons, List.sum_cons, List.countP_cons, ih]
      by_cases h : p q
      · simp [h]
        omega
      · simp [h]

theorem countP_singleton_entry {q c : ℚ} :
    ([c].countP (fun e => distLEb q e)) = if distLEb q c then 1 else 0 := by
  simp [List.countP_cons, List.countP_nil]

theorem pairCountsQ_one1d {c : ℚ} {qs : List ℚ} :
    pairCountsQ (.one1d c) qs = [qs.countP (fun q => distLEb q c)] := by
  simp only [pairCountsQ, cutLen, cutEntries]
  rw [if_neg (by omega)]
  congr 1
  calc (qs.map (fun q => ([c].countP (fun e => distLEb q e)))).sum
      = (qs.map (fun q => if distLEb q c then 1 else 0)).sum := by
        congr 1
        exact List.map_congr_left (fun q _ => countP_singleton_entry)
    _ = qs.countP (fun q => distLEb q c) := sum_map_ite_count

theorem countP_pair_entries {q lo hi : ℚ} :
    ([lo, hi].countP (fun e => distLEb q e)) =
      (if distLEb q lo then 1 else 0) + (if distLEb q hi then 1 else 0) := by
  simp only [List.countP_cons, List.countP_nil]
  by_cases h1 : distLEb q lo <;> by_cases h2 : distLEb q hi <;> simp [h1, h2]

theorem sum_map_add {f g : ℚ → ℕ} :
    ∀ {qs : List ℚ}, (qs.map (fun q => f q + g q)).sum =
      (qs.map f).sum + (qs.map g).sum := by
  intro qs
  induction qs with
  | nil => rfl
  | cons q rest ih =>
      simp only [List.map_cons, List.sum_cons, ih]
      omega

theorem pairCountsQ_single_pair {lo hi : ℚ} {qs : List ℚ} :
    pairCountsQ (.rows [(lo, hi)]) qs =
      [qs.countP (fun q => distLEb q lo) + qs.countP (fun q => distLEb q hi)] := by
  simp only [pairCountsQ, cutLen, cutEntries]
  rw [if_neg (by simp)]
  congr 1
  calc (qs.map (fun q => (([(lo, hi)].flatMap fun r => [r.1, r.2]).countP
          (fun e => distLEb q e)))).sum
      = (qs.map (fun q => (if distLEb q lo then 1 else 0) +
          (if distLEb q hi then 1 else 0))).sum := by
        congr 1
        refine List.map_congr_left (fun q _ => ?_)
        simpa using countP_pair_entries
    _ = (qs.map (fun q => if distLEb q lo then 1 else 0)).sum +
          (qs.map (fun q => if distLEb q hi then 1 else 0)).sum := sum_map_add
    _ = _ := by rw [sum_map_ite_count, sum_map_ite_count]

theorem pairCountsQ_multi {rs : List (ℚ × ℚ)} {qs : List ℚ} (h : 1 < rs.length) :
    pairCountsQ (.rows rs) qs =
      rs.map (fun r => qs.countP (fun q => !distLEb q r.1 && distLEb q r.2)) := by
  simp only [pairCountsQ, cutLen]
  rw [if_pos h]

theorem pairCountsQ_length {cut : CutoffArr} (hv : cutoffValid cut) {qs : List ℚ} :
    (pairCountsQ cut qs).length = cutLen cut := by
  match cut with
  | .one1d c => rw [pairCountsQ_one1d]; rfl
  | .rows rs =>
      match rs with
      | [] => exact absurd rfl hv
      | [r] =>
          rw [pairCountsQ_single_pair]
          rfl
      | r1 :: r2 :: rest =>
          rw [pairCountsQ_multi (by simp)]
          simp [cutLen]

theorem map_shell_countP_append {rs : List (ℚ × ℚ)} {qs1 qs2 : List ℚ} :
    rs.map (fun r => (qs1 ++ qs2).countP (fun q => !distLEb q r.1 && distLEb q r.2)) =
      List.zipWith (· + ·)
        (rs.map (fun r => qs1.countP (fun q => !distLEb q r.1 && distLEb q r.2)))
        (rs.map (fun r => qs2.countP (fun q => !distLEb q r.1 && distLEb q r.2))) := by
  induction rs with
  | nil => rfl
  | cons r rest ih =>
      simp only [List.countP_append] at ih ⊢
      simp only [List.map_cons, List.zipWith_cons_cons]
      rw [ih]

theorem pairCountsQ_append {cut : CutoffArr} {qs1 qs2 : List ℚ} :
    pairCountsQ cut (qs1 ++ qs2) =
      List.zipWith (· + ·) (pairCountsQ cut qs1) (pairCountsQ cut qs2) := by
  by_cases h : 1 < cutLen cut
  · match cut with
    | .one1d _ => simp [cutLen] at h
    | .rows rs =>
        rw [pairCountsQ_multi (by simpa [cutLen] using h),
          pairCountsQ_multi (by simpa [cutLen] using h),
          pairCountsQ_multi (by simpa [cutLen] using h)]
        exact map_shell_countP_append
  · simp only [pairCountsQ, if_neg h]
    simp only [List.map_append, List.sum_append, List.zipWith_cons_cons,
      List.zipWith_nil_right]

/-! ### Structure of classification results -/

theorem ad4Build_shape (us : List String) :
    (∃ e, ∀ tbl, ad4Build tbl us = .error e) ∨
      (∃ kps : List (TypeKey × (Atom → Bool)), ∀ tbl,
        ad4Build tbl us = .ok (kps.map (fun kp => (kp.1, tbl.filter kp.2)))) := by
  induction us with
  | nil => exact Or.inr ⟨[], fun tbl => rfl⟩
  | cons t ts ih =>
      cases hz : ad4_to_atomicnum t with
      | none =>
          refine Or.inl ⟨"Unsopported atom type: " ++ t, fun tbl => ?_⟩
          simp only [ad4Build, hz]
      | some z =>
          rcases ih with ⟨e, he⟩ | ⟨kps, hk⟩
          · refine Or.inl ⟨e, fun tbl => ?_⟩
            simp only [ad4Build, hz, he tbl]
          · refine Or.inr ⟨(.str t, ad4Match t z) :: kps, fun tbl => ?_⟩
            simp only [ad4Build, hz, hk tbl, List.map_cons]

theorem atoms_by_type_shape (types : List TypeKey) (mode : String) :
    (∃ e, ∀ tbl, atoms_by_type tbl types mode = .error e) ∨
      (∃ kps : List (TypeKey × (Atom → Bool)), ∀ tbl,
        atoms_by_type tbl types mode = .ok (kps.map (fun kp => (kp.1, tbl.filter kp.2)))) := by
  by_cases h1 : mode = "atomic_nums"
  · refine Or.inr ⟨types.dedup.map (fun t => (t, anumMatch t)), fun tbl => ?_⟩
    simp only [atoms_by_type, if_pos h1, List.map_map]
    rfl
  · by_cases h2 : mode = "atom_types_sybyl"
    · refine Or.inr ⟨types.dedup.map (fun t => (t, sybylMatch t)), fun tbl => ?_⟩
      simp only [atoms_by_type, if_neg h1, if_pos h2, List.map_map]
      rfl
    · by_cases h3 : mode = "atom_types_ad4"
      · cases hu : upperAll types with
        | none =>
            refine Or.inl ⟨"AttributeError", fun tbl => ?_⟩
            simp only [atoms_by_type, if_neg h1, if_neg h2, if_pos h3, hu]
        | some us =>
            rcases ad4Build_shape us.dedup with ⟨e, he⟩ | ⟨kps, hk⟩
            · refine Or.inl ⟨e, fun tbl => ?_⟩
              simp only [atoms_by_type, if_neg h1, if_neg h2, if_pos h3, hu, he tbl]
            · refine Or.inr ⟨kps, fun tbl => ?_⟩
              simp only [atoms_by_type, if_neg h1, if_neg h2, if_pos h3, hu, hk tbl]
      · refine Or.inl ⟨"Unsopported mode: " ++ mode, fun tbl => ?_⟩
        simp only [atoms_by_type, if_neg h1, if_neg h2, if_neg h3]

/-! ### The neighborhood reduction does not change counts -/

theorem allSq_cons {a : Atom} {A la : List Atom} :
    allSq (a :: A) la = la.map (fun x => sqDist a x) ++ allSq A la := by
  simp [allSq]

theorem pairCountsQ_append_far {cut : CutoffArr} {blk qs : List ℚ}
    (hfar : ∀ q ∈ blk, distLEb q (cutoffMax cut) = false) :
    pairCountsQ cut (blk ++ qs) = pairCountsQ cut qs := by
  have hblk0 : ∀ hi2 : ℚ, hi2 ∈ cutEntries cut →
      blk.countP (fun q => distLEb q hi2) = 0 := by
    intro hi2 hmem
    rw [List.countP_eq_zero]
    intro q hq
    have : distLEb q hi2 = false :=
      distLEb_false_of_le (cutEntries_le_max hmem) (hfar q hq)
    simp [this]
  by_cases h : 1 < cutLen cut
  · match cut with
    | .one1d _ => simp [cutLen] at h
    | .rows rs =>
        rw [pairCountsQ_multi (by simpa [cutLen] using h),
          pairCountsQ_multi (by simpa [cutLen] using h)]
        refine List.map_congr_left (fun r hr => ?_)
        rw [List.countP_append]
        have hz : blk.countP (fun q => !distLEb q r.1 && distLEb q r.2) = 0 := by
          rw [List.countP_eq_zero]
          intro q hq
          have hhi : r.2 ∈ cutEntries (.rows rs) := by
            simp only [cutEntries, List.mem_flatMap]
            exact ⟨r, hr, by simp⟩
          have : distLEb q r.2 = false :=
            distLEb_false_of_le (cutEntries_le_max hhi) (hfar q hq)
          simp [this]
        omega
  · simp only [pairCountsQ, if_neg h]
    rw [List.map_append, List.sum_append]
    have : (blk.map (fun q => (cutEntries cut).countP (fun e => distLEb q e))).sum = 0 := by
      apply List.sum_eq_zero
      intro n hn
      rw [List.mem_map] at hn
      obtain ⟨q, hq, hqn⟩ := hn
      rw [← hqn, List.countP_eq_zero]
      intro e he
      have : distLEb q e = false :=
        distLEb_false_of_le (cutEntries_le_max he) (hfar q hq)
      simp [this]
    rw [this, Nat.zero_add]

theorem far_of_not_inRange {cut : CutoffArr} {lig la : List Atom} {a : Atom}
    (hla : ∀ x ∈ la, x ∈ lig) (h : ¬inRangeb cut lig a = true) :
    ∀ q ∈ la.map (fun x => sqDist a x), distLEb q (cutoffMax cut) = false := by
  intro q hq
  rw [List.mem_map] at hq
  obtain ⟨x, hx, hxq⟩ := hq
  rw [Bool.not_eq_true, inRangeb, List.any_eq_false] at h
  rw [← hxq]
  have := h x (hla x hx)
  simpa using this

theorem pairCounts_filter_inRange {cut : CutoffArr} {lig la : List Atom}
    (hla : ∀ x ∈ la, x ∈ lig) :
    ∀ A : List Atom, pairCounts cut (A.filter (inRangeb cut lig)) la =
      pairCounts cut A la := by
  intro A
  induction A with
  | nil => rfl
  | cons a A ih =>
      by_cases h : inRangeb cut lig a
      · rw [List.filter_cons_of_pos h]
        unfold pairCounts
        rw [allSq_cons, allSq_cons, pairCountsQ_append, pairCountsQ_append]
        rw [show pairCountsQ cut (allSq (List.filter (inRangeb cut lig) A) la) =
          pairCountsQ cut (allSq A la) from ih]
      · rw [List.filter_cons_of_neg h]
        unfold pairCounts at ih ⊢
        rw [allSq_cons, pairCountsQ_append_far (far_of_not_inRange hla h)]
        exact ih

theorem localProtein_filter_comm {cut : CutoffArr} {prot lig : List Atom}
    {mtc : Atom → Bool} :
    (localProtein cut prot lig).filter mtc =
      (prot.filter mtc).filter (inRangeb cut lig) := by
  unfold localProtein
  rw [List.filter_filter, List.filter_filter]
  exact List.filter_congr (fun a _ => Bool.and_comm _ _)

theorem pairCounts_local_full {cut : CutoffArr} {prot lig la : List Atom}
    {mtc : Atom → Bool} (hla : ∀ x ∈ la, x ∈ lig) :
    pairCounts cut ((localProtein cut prot lig).filter mtc) la =
      pairCounts cut (prot.filter mtc) la := by
  rw [localProtein_filter_comm]
  exact pairCounts_filter_inRange hla (prot.filter mtc)

theorem lookup_map_filter {α : Type} [DecidableEq α]
    (kps : List (α × (Atom → Bool))) (tbl : List Atom) (k : α) :
    List.lookup k (kps.map (fun kp => (kp.1, tbl.filter kp.2))) =
      (List.lookup k kps).map (fun pr => tbl.filter pr) := by
  induction kps with
  | nil => rfl
  | cons p ps ih =>
      simp only [List.map_cons, List.lookup]
      by_cases h : k = p.1
      · subst h
        simp
      · have hbe : (k == p.1) = false := by simpa using h
        rw [hbe]
        exact ih

theorem pairStep_local_full {cut : CutoffArr} {prot lig : List Atom}
    {kps kpsL : List (TypeKey × (Atom → Bool))} {mp : TypeKey × TypeKey} :
    pairStep cut
      (kps.map (fun kp => (kp.1, (localProtein cut prot lig).filter kp.2)))
      (kpsL.map (fun kp => (kp.1, lig.filter kp.2))) mp =
    pairStep cut
      (kps.map (fun kp => (kp.1, prot.filter kp.2)))
      (kpsL.map (fun kp => (kp.1, lig.filter kp.2))) mp := by
  unfold pairStep
  rw [lookup_map_filter kps (localProtein cut prot lig) mp.2,
    lookup_map_filter kps prot mp.2]
  cases hpr : List.lookup mp.2 kps with
  | none => rfl
  | some pr =>
      simp only [Option.map_some']
      rw [lookup_map_filter kpsL lig mp.1]
      cases hl : List.lookup mp.1 kpsL with
      | none => rfl
      | some prL =>
          simp only [Option.map_some']
          congr 1
          exact pairCounts_local_full (fun x hx => List.mem_of_mem_filter hx)

/-! ### Inversion of a successful build -/

theorem bindE_ok {a : α} {f : α → Except String β} : bindE (.ok a) f = f a := rfl

theorem bindE_error {e : String} {f : α → Except String β} :
    bindE (.error e) f = .error e := rfl

theorem buildRow_ok_elim {cfg : CCConfig} {lig : List Atom} {row : List ℕ}
    (h : buildRow cfg lig = .ok row) :
    ∃ prot molDict protDict counts,
      cfg.protein = some prot ∧
      atoms_by_type lig cfg.ligand_types cfg.mode = .ok molDict ∧
      atoms_by_type (localProtein cfg.cutoff prot lig) cfg.protein_types cfg.mode
        = .ok protDict ∧
      mapE (pairStep cfg.cutoff protDict molDict) (buildPairs cfg) = .ok counts ∧
      row = counts.flatten := by
  unfold buildRow at h
  cases hp : cfg.protein with
  | none => rw [hp] at h; cases h
  | some prot =>
      rw [hp] at h
      simp only [optToExcept, bindE_ok] at h
      cases hmol : atoms_by_type lig cfg.ligand_types cfg.mode with
      | error e => rw [hmol] at h; cases h
      | ok molDict =>
          rw [hmol] at h
          simp only [bindE_ok] at h
          cases hprot : atoms_by_type (localProtein cfg.cutoff prot lig)
              cfg.protein_types cfg.mode with
          | error e => rw [hprot] at h; cases h
          | ok protDict =>
              rw [hprot] at h
              simp only [bindE_ok] at h
              cases hmap : mapE (pairStep cfg.cutoff protDict molDict) (buildPairs cfg) with
              | error e => rw [hmap] at h; cases h
              | ok counts =>
                  rw [hmap] at h
                  simp only [bindE_ok] at h
                  cases h
                  exact ⟨prot, molDict, protDict, counts, rfl, rfl, hprot, hmap, rfl⟩

theorem pairStep_ok_length {cut : CutoffArr} {d1 d2 : List (TypeKey × List Atom)}
    {mp : TypeKey × TypeKey} {b : List ℕ} (hv : cutoffValid cut)
    (h : pairStep cut d1 d2 mp = .ok b) : b.length = cutLen cut := by
  unfold pairStep at h
  cases h1 : d1.lookup mp.2 with
  | none => rw [h1] at h; cases h
  | some pAtoms =>
      rw [h1] at h
      cases h2 : d2.lookup mp.1 with
      | none => rw [h2] at h; cases h
      | some lAtoms =>
          rw [h2] at h
          cases h
          exact pairCountsQ_length hv

theorem buildRow_ok_row_length {cfg : CCConfig} {lig : List Atom} {row : List ℕ}
    (hv : cutoffValid cfg.cutoff) (h : buildRow cfg lig = .ok row) :
    row.length = (buildPairs cfg).length * cutLen cfg.cutoff := by
  obtain ⟨prot, molDict, protDict, counts, _, _, _, hmap, hrow⟩ := buildRow_ok_elim h
  have hblocks : ∀ b ∈ counts, b.length = cutLen cfg.cutoff := by
    intro b hb
    obtain ⟨mp, _, hstep⟩ := mapE_ok_mem hmap b hb
    exact pairStep_ok_length hv hstep
  rw [hrow, flatten_length_uniform hblocks, mapE_ok_length hmap]

theorem buildPairs_length_cross {cfg : CCConfig} (h : cfg.aligned_pairs = false) :
    (buildPairs cfg).length = cfg.ligand_types.length * cfg.protein_types.length := by
  unfold buildPairs
  rw [h]
  simp only [Bool.false_eq_true, if_false]
  exact length_flatMap_product

theorem buildPairs_length_aligned {cfg : CCConfig} (h : cfg.aligned_pairs = true) :
    (buildPairs cfg).length =
      min cfg.ligand_types.length cfg.protein_types.length := by
  unfold buildPairs
  rw [h]
  simp [List.length_zip]

/-! ## Claim theorems -/

/-- Claim C5: for every configuration, protein and ligand, restricting the
protein-atom classification to the reduced neighborhood of atoms within the
maximum cutoff boundary of some ligand atom does not change the result:
`buildRow` agrees with the otherwise identical computation
`buildRowFullClassify` that classifies the full protein atom table. -/
theorem local_neighborhood_classification_equiv (cfg : CCConfig) (lig : List Atom) :
    buildRow cfg lig = buildRowFullClassify cfg lig := by
  unfold buildRow buildRowFullClassify
  cases hp : cfg.protein with
  | none => rfl
  | some prot =>
      simp only [optToExcept, bindE_ok]
      rcases atoms_by_type_shape cfg.ligand_types cfg.mode with ⟨e, he⟩ | ⟨kpsL, hkL⟩
      · rw [he lig]
        rfl
      · rw [hkL lig]
        simp only [bindE_ok]
        rcases atoms_by_type_shape cfg.protein_types cfg.mode with ⟨e2, he2⟩ | ⟨kps, hk⟩
        · rw [he2 (localProtein cfg.cutoff prot lig), he2 prot]
        · rw [hk (localProtein cfg.cutoff prot lig), hk prot]
          simp only [bindE_ok]
          rw [mapE_congr (fun mp _ => pairStep_local_full)]

/-- Claim C1: for every configuration whose cutoff table is well formed and
whose type lists have equal length under aligned pairing, every row of a
matrix returned by `ccBuild` has exactly `lenDescriptor` entries, and
`lenDescriptor` is `len(ligand_types) * n_shells` under aligned pairing and
`len(ligand_types) * len(protein_types) * n_shells` under the cross
product, computed purely from the configuration. -/
theorem build_row_length_eq_len_descriptor (cfg : CCConfig)
    (hv : cutoffValid cfg.cutoff)
    (hal : cfg.aligned_pairs = true →
      cfg.ligand_types.length = cfg.protein_types.length) :
    (∀ ligs M, ccBuild cfg ligs = .ok M →
      ∀ row ∈ M, row.length = lenDescriptor cfg) ∧
    lenDescriptor cfg =
      (if cfg.aligned_pairs then cfg.ligand_types.length * cutLen cfg.cutoff
       else cfg.ligand_types.length * cfg.protein_types.length * cutLen cfg.cutoff) := by
  constructor
  · intro ligs M hM row hrow
    have hbr : ∃ lig, buildRow cfg lig = .ok row := by
      cases ligs with
      | nil => unfold ccBuild at hM; cases hM
      | cons l ls =>
          unfold ccBuild at hM
          obtain ⟨x, _, hfx⟩ := mapE_ok_mem hM row hrow
          exact ⟨x, hfx⟩
    obtain ⟨lig, hlig⟩ := hbr
    rw [buildRow_ok_row_length hv hlig]
    unfold lenDescriptor
    by_cases hap : cfg.aligned_pairs = true
    · rw [if_pos (by rw [hap]), buildPairs_length_aligned hap, hal hap, min_self]
    · have hap2 : cfg.aligned_pairs = false := by
        cases hb : cfg.aligned_pairs
        · rfl
        · exact absurd hb hap
      rw [if_neg (by rw [hap2]; exact Bool.false_ne_true),
        buildPairs_length_cross hap2]
  · rfl

/-- Witness for C1 at a concrete input. -/
theorem build_row_length_eq_len_descriptor_witness :
    cutoffValid cfgScenario.cutoff ∧
    ccBuild cfgScenario [[atomC001]] = .ok [[1, 1]] ∧
    (2 : ℕ) = lenDescriptor cfgScenario := by
  refine ⟨trivial, by with_unfolding_all rfl, ?_⟩
  have h := (build_row_length_eq_len_descriptor cfgScenario trivial
    (fun hfalse => absurd hfalse (by decide))).1
    [[atomC001]] [[1, 1]] (by with_unfolding_all rfl) [1, 1] (by simp)
  simpa using h.symm

/-- Claim C3 counterexample: with aligned pairing and ligand-type list
`[6, 7]` against protein-type list `[6]`, `build` does not fail loudly: it
returns a row of length 1, while `lenDescriptor` reports 2. -/
theorem aligned_unequal_silently_truncates_cex :
    cfgAlignedUneq.aligned_pairs = true ∧
    cfgAlignedUneq.ligand_types.length = 2 ∧
    cfgAlignedUneq.protein_types.length = 1 ∧
    buildRow cfgAlignedUneq [atomC001] = .ok [1] ∧
    lenDescriptor cfgAlignedUneq = 2 :=
  ⟨rfl, rfl, rfl, by with_unfolding_all rfl, rfl⟩

/-- Claim C3 (amended): under aligned pairing with unequal-length type
lists, `build` does not fail: `zip` silently truncates the pairing to the
shorter list, so every returned row has
`min (len ligand_types) (len protein_types) * n_shells` entries — which
disagrees with `lenDescriptor` whenever the ligand-type list is longer. -/
theorem aligned_unequal_silently_truncates (cfg : CCConfig)
    (hv : cutoffValid cfg.cutoff) (hap : cfg.aligned_pairs = true) :
    ∀ lig row, buildRow cfg lig = .ok row →
      row.length =
        min cfg.ligand_types.length cfg.protein_types.length * cutLen cfg.cutoff := by
  intro lig row h
  rw [buildRow_ok_row_length hv h, buildPairs_length_aligned hap]

/-- Witness for the amended C3 at a concrete input. -/
theorem aligned_unequal_silently_truncates_witness :
    cutoffValid cfgAlignedUneq.cutoff ∧ cfgAlignedUneq.aligned_pairs = true ∧
    buildRow cfgAlignedUneq [atomC001] = .ok [1] ∧
    (1 : ℕ) = min cfgAlignedUneq.ligand_types.length
      cfgAlignedUneq.protein_types.length * cutLen cfgAlignedUneq.cutoff := by
  refine ⟨trivial, rfl, by with_unfolding_all rfl, ?_⟩
  have h := aligned_unequal_silently_truncates cfgAlignedUneq trivial rfl
    [atomC001] [1] (by with_unfolding_all rfl)
  exact h.symm

/-- Claim C6: for the protein with carbon at the origin and nitrogen at
`(0,0,5)`, the one-carbon ligand at `(0,0,1)`, scalar cutoff 4,
`ligand_types = [6]`, `protein_types = [6, 7]` and cross-product pairing,
`build` returns the single row `[1, 1]` (both pair distances, 1 and 4, are
at most 4) and the titles are `["6.6", "7.6"]`. -/
theorem concrete_scenario_row_and_titles :
    ccBuild cfgScenario [[atomC001]] = .ok [[1, 1]] ∧
    cfgScenario.titles = ["6.6", "7.6"] := by
  constructor
  · with_unfolding_all rfl
  · with_unfolding_all rfl

theorem resolveProtTypes_idem (pt : Option (List TypeKey)) (lt : List TypeKey) :
    resolveProtTypes (some (resolveProtTypes pt lt)) lt = resolveProtTypes pt lt := by
  cases pt with
  | none => cases lt <;> rfl
  | some l =>
      cases l with
      | nil => cases lt <;> rfl
      | cons x xs => rfl

theorem ccReconstruct_reduce (p : Option (List Atom)) (c : CutoffSpec) (m : String)
    (lt : List TypeKey) (pt : Option (List TypeKey)) (ap : Bool) :
    ccReconstruct (ccReduce (ccInit p c m lt pt ap)) = ccInit p c m lt pt ap := by
  unfold ccReconstruct ccReduce ccInit
  simp only [resolveProtTypes_idem]

/-- Claim C8 counterexample: the `__reduce__` tuple does not exclude the
live protein reference — for a descriptor built with a protein, the first
component of the tuple is that protein, not `none`. -/
theorem reduce_tuple_includes_protein_cex :
    (ccReduce cfgScenario).protein = some [atomC000, atomN005] ∧
    (ccReduce cfgScenario).protein ≠ none := by
  constructor
  · rfl
  · intro h
    rw [show (ccReduce cfgScenario).protein = some [atomC000, atomN005] from rfl] at h
    exact Option.noConfusion h

/-- Claim C8 (amended): the serialization tuple of `__reduce__` carries the
live protein reference as its first component (the caller does not need to
re-supply it), and the whole configuration — the cutoff as originally
given, mode, ligand types, protein types and the aligned flag — round-trips
exactly: reconstructing from the tuple yields an identical descriptor. -/
theorem reduce_carries_protein_and_roundtrips (p : Option (List Atom))
    (c : CutoffSpec) (m : String) (lt : List TypeKey)
    (pt : Option (List TypeKey)) (ap : Bool) :
    (ccReduce (ccInit p c m lt pt ap)).protein = p ∧
    (ccReduce (ccInit p c m lt pt ap)).cutoff = c ∧
    (ccReduce (ccInit p c m lt pt ap)).mode = m ∧
    (ccReduce (ccInit p c m lt pt ap)).ligand_types = lt ∧
    (ccReduce (ccInit p c m lt pt ap)).aligned_pairs = ap ∧
    ccReconstruct (ccReduce (ccInit p c m lt pt ap)) = ccInit p c m lt pt ap :=
  ⟨rfl, rfl, rfl, rfl, rfl, ccReconstruct_reduce p c m lt pt ap⟩

/-- Claim C9: reconstructing a descriptor from its `__reduce__` argument
tuple (which carries the original pre-normalization cutoff argument) yields
an object whose expanded cutoff table, titles, reported length and build
output on any ligand batch are identical to those of the original. -/
theorem reconstruct_identical_behavior (p : Option (List Atom)) (c : CutoffSpec)
    (m : String) (lt : List TypeKey) (pt : Option (List TypeKey)) (ap : Bool) :
    (ccReconstruct (ccReduce (ccInit p c m lt pt ap))).cutoff
        = (ccInit p c m lt pt ap).cutoff ∧
    (ccReconstruct (ccReduce (ccInit p c m lt pt ap))).titles
        = (ccInit p c m lt pt ap).titles ∧
    lenDescriptor (ccReconstruct (ccReduce (ccInit p c m lt pt ap)))
        = lenDescriptor (ccInit p c m lt pt ap) ∧
    ∀ ligs, ccBuild (ccReconstruct (ccReduce (ccInit p c m lt pt ap))) ligs
        = ccBuild (ccInit p c m lt pt ap) ligs := by
  rw [ccReconstruct_reduce p c m lt pt ap]
  exact ⟨rfl, rfl, rfl, fun ligs => rfl⟩

/-- Claim C10: a flat two-element increasing cutoff list `[lo, hi]` is
expanded by the constructor to the single interval table `[[lo, hi]]`; with
only one shell, `build` takes the single-cutoff branch, which broadcasts
every distance against both boundaries, so each pair's count is
`#(d ≤ lo) + #(d ≤ hi)` rather than the shell count `#(lo < d ≤ hi)`. -/
theorem flat_pair_cutoff_counts_both_bounds (lo hi : ℚ) (_hlt : lo < hi)
    (p : Option (List Atom)) (m : String) (lt : List TypeKey)
    (pt : Option (List TypeKey)) (ap : Bool) :
    (ccInit p (.flat [lo, hi]) m lt pt ap).cutoff = .rows [(lo, hi)] ∧
    ∀ pA lA, pairCounts (ccInit p (.flat [lo, hi]) m lt pt ap).cutoff pA lA =
      [(allSq pA lA).countP (fun q => distLEb q lo) +
        (allSq pA lA).countP (fun q => distLEb q hi)] := by
  refine ⟨rfl, fun pA lA => ?_⟩
  show pairCountsQ (.rows [(lo, hi)]) (allSq pA lA) = _
  exact pairCountsQ_single_pair

/-- Witness for C10 at a concrete input. -/
theorem flat_pair_cutoff_counts_both_bounds_witness :
    (0 : ℚ) < 4 ∧
    cfgShells2Flat.cutoff = .rows [(0, 4)] ∧
    pairCounts cfgShells2Flat.cutoff [atomC000] [atomC001] = [1] := by
  refine ⟨by norm_num, ?_, ?_⟩
  · exact (flat_pair_cutoff_counts_both_bounds 0 4 (by norm_num)
      (some [atomC000]) "atomic_nums" [.num 6] none false).1
  · show pairCounts (ccInit (some [atomC000]) (.flat [0, 4]) "atomic_nums"
      [.num 6] none false).cutoff [atomC000] [atomC001] = [1]
    rw [(flat_pair_cutoff_counts_both_bounds 0 4 (by norm_num)
      (some [atomC000]) "atomic_nums" [.num 6] none false).2 [atomC000] [atomC001]]
    with_unfolding_all rfl

theorem count_step {x y : ℚ} (hxy : x ≤ y) (qs : List ℚ) :
    qs.countP (fun q => !distLEb q x && distLEb q y) +
      qs.countP (fun q => distLEb q x) = qs.countP (fun q => distLEb q y) := by
  induction qs with
  | nil => rfl
  | cons q rest ih =>
      simp only [List.countP_cons]
      rw [← ih]
      by_cases hx : distLEb q x = true
      · have hy : distLEb q y = true := distLEb_mono hxy hx
        simp [hx, hy]
        omega
      · rw [Bool.not_eq_true] at hx
        by_cases hy : distLEb q y = true
        · simp [hx, hy]
          omega
        · rw [Bool.not_eq_true] at hy
          simp [hx, hy]

theorem shell_telescope {qs : List ℚ} :
    ∀ (b : List ℚ) (x c : ℚ), List.Chain' (· ≤ ·) (x :: b) →
      (x :: b).getLast? = some c →
      (((x :: b).zip b).map
        (fun r => qs.countP (fun q => !distLEb q r.1 && distLEb q r.2))).sum
        + qs.countP (fun q => distLEb q x)
        = qs.countP (fun q => distLEb q c) := by
  intro b
  induction b with
  | nil =>
      intro x c _ hl
      simp only [List.getLast?_singleton, Option.some_inj] at hl
      subst hl
      simp [List.zip_nil_right]
  | cons y rest ih =>
      intro x c hch hl
      rw [List.chain'_cons] at hch
      have hz : (x :: y :: rest).zip (y :: rest) = (x, y) :: ((y :: rest).zip rest) := rfl
      rw [hz]
      simp only [List.map_cons, List.sum_cons]
      have hlast : (y :: rest).getLast? = some c := by
        rw [← List.getLast?_cons_cons]
        exact hl
      have ihy := ih y c hch.2 hlast
      have hstep := count_step hch.1 qs
      omega

theorem chain_le_last :
    ∀ {b : List ℚ} {c : ℚ}, List.Chain' (· ≤ ·) b → b.getLast? = some c →
      ∀ x ∈ b, x ≤ c := by
  intro b
  induction b with
  | nil => intro c _ hl; cases hl
  | cons a rest ih =>
      intro c hch hl x hx
      cases rest with
      | nil =>
          simp only [List.getLast?_singleton, Option.some_inj] at hl
          subst hl
          simp only [List.mem_singleton] at hx
          exact le_of_eq hx
      | cons y rest2 =>
          rw [List.chain'_cons] at hch
          have hlast : (y :: rest2).getLast? = some c := by
            rw [← List.getLast?_cons_cons]
            exact hl
          rcases List.mem_cons.mp hx with hx | hx
          · subst hx
            exact le_trans hch.1 (ih hch.2 hlast y (List.mem_cons_self _ _))
          · exact ih hch.2 hlast x hx

theorem getLast?_mem_self : ∀ {l : List ℚ} {c : ℚ}, l.getLast? = some c → c ∈ l := by
  intro l
  induction l with
  | nil => intro c h; cases h
  | cons a rest ih =>
      intro c h
      cases rest with
      | nil =>
          simp only [List.getLast?_singleton, Option.some_inj] at h
          subst h
          exact List.mem_singleton_self _
      | cons y rest2 =>
          rw [List.getLast?_cons_cons] at h
          exact List.mem_cons.mpr (Or.inr (ih h))

theorem zip_tail_entries_sub {b : List ℚ} {e : ℚ}
    (he : e ∈ cutEntries (.rows (b.zip b.tail))) : e ∈ b := by
  simp only [cutEntries, List.mem_flatMap] at he
  obtain ⟨r, hr, her⟩ := he
  have hm := List.of_mem_zip hr
  simp only [List.mem_cons, List.mem_singleton, List.not_mem_nil, or_false] at her
  rcases her with her | her
  · rw [her]; exact hm.1
  · rw [her]; exact List.tail_subset b hm.2

theorem last_mem_zip_entries {b0 b1 : ℚ} {rest : List ℚ} {c : ℚ}
    (hl : (b0 :: b1 :: rest).getLast? = some c) :
    c ∈ cutEntries (.rows ((b0 :: b1 :: rest).zip (b0 :: b1 :: rest).tail)) := by
  have hc : c ∈ (b0 :: b1 :: rest).tail := by
    rw [List.getLast?_cons_cons] at hl
    exact getLast?_mem_self hl
  have hmap : ((b0 :: b1 :: rest).zip (b0 :: b1 :: rest).tail).map Prod.snd
      = (b0 :: b1 :: rest).tail :=
    List.map_snd_zip _ _ (by simp)
  rw [← hmap, List.mem_map] at hc
  obtain ⟨r, hr, hrc⟩ := hc
  simp only [cutEntries, List.mem_flatMap]
  exact ⟨r, hr, by rw [← hrc]; simp⟩

theorem cutoffMax_zip_chain {b0 b1 : ℚ} {rest : List ℚ} {c : ℚ}
    (hch : List.Chain' (· ≤ ·) (b0 :: b1 :: rest))
    (hl : (b0 :: b1 :: rest).getLast? = some c) :
    cutoffMax (.rows ((b0 :: b1 :: rest).zip (b0 :: b1 :: rest).tail)) = c := by
  apply le_antisymm
  · have hmem : listMax0 (cutEntries (.rows ((b0 :: b1 :: rest).zip
        (b0 :: b1 :: rest).tail))) ∈ cutEntries (.rows ((b0 :: b1 :: rest).zip
        (b0 :: b1 :: rest).tail)) := by
      apply listMax0_mem
      intro hemp
      have : c ∈ cutEntries (.rows ((b0 :: b1 :: rest).zip (b0 :: b1 :: rest).tail)) :=
        last_mem_zip_entries hl
      rw [hemp] at this
      cases this
    exact chain_le_last hch hl _ (zip_tail_entries_sub hmem)
  · exact le_listMax0 (last_mem_zip_entries hl)

theorem countLE_eq_shell_sum {qs b : List ℚ} {c : ℚ}
    (hch : List.Chain' (· ≤ ·) b) (hl : b.getLast? = some c)
    (hh : b.head? = some 0) (hpos : ∀ q ∈ qs, 0 < q) :
    qs.countP (fun q => distLEb q c) =
      ((b.zip b.tail).map
        (fun r => qs.countP (fun q => !distLEb q r.1 && distLEb q r.2))).sum := by
  cases b with
  | nil => cases hh
  | cons x rest =>
      simp only [List.head?_cons, Option.some_inj] at hh
      subst hh
      have htel := @shell_telescope qs rest 0 c hch hl
      have hzero : qs.countP (fun q => distLEb q 0) = 0 := by
        rw [List.countP_eq_zero]
        intro q hq
        simp only [distLEb, decide_eq_true_eq, not_and]
        intro _
        have := hpos q hq
        intro hle
        rw [mul_zero] at hle
        exact absurd (lt_of_lt_of_le this hle) (lt_irrefl 0)
      rw [show ((0 : ℚ) :: rest).tail = rest from rfl]
      omega

theorem mem_allSq {q : ℚ} {A B : List Atom} (h : q ∈ allSq A B) :
    ∃ a ∈ A, ∃ x ∈ B, q = sqDist a x := by
  simp only [allSq, List.mem_flatMap, List.mem_map] at h
  obtain ⟨a, ha, x, hx, hq⟩ := h
  exact ⟨a, ha, x, hx, hq.symm⟩

theorem forall2_extract {ys zs : List (List ℕ)} {N : ℕ}
    (h : List.Forall₂ (fun y z => y = [z.sum] ∧ z.length = N) ys zs) :
    ys = zs.map (fun z => [z.sum]) ∧ ∀ z ∈ zs, z.length = N := by
  induction h with
  | nil => exact ⟨rfl, fun z hz => absurd hz (List.not_mem_nil z)⟩
  | cons hR _ ih =>
      refine ⟨?_, ?_⟩
      · rw [List.map_cons, ← ih.1, hR.1]
      · intro z hz
        rcases List.mem_cons.mp hz with hz | hz
        · subst hz
          exact hR.2
        · exact ih.2 z hz

theorem flatten_map_singleton {zs : List (List ℕ)} {f : List ℕ → ℕ} :
    (zs.map (fun z => [f z])).flatten = zs.map f := by
  induction zs with
  | nil => rfl
  | cons z rest ih => simp [ih]

/-- Claim C4 counterexample: with a protein atom and a ligand atom at the
same position (squared distance 0), the single-cutoff count under scalar
cutoff 4 is 1, but the shell decomposition `[0, 2, 4]` covering the same
range counts 0 in every shell, because the zero distance lies in no
lower-exclusive shell; 1 differs from the shell sum 0 + 0. -/
theorem single_cutoff_shell_sum_cex :
    buildRow cfgScalar4 [atomC000] = .ok [1] ∧
    buildRow cfgShells024 [atomC000] = .ok [0, 0] ∧
    (1 : ℕ) ≠ 0 + 0 :=
  ⟨by with_unfolding_all rfl, by with_unfolding_all rfl, by omega⟩

/-- Claim C4 (amended): for every type pair and every protein/ligand
geometry in which no protein atom coincides exactly with a ligand atom,
the count produced by `build` under a single scalar cutoff `c` equals the
sum over all shells of the per-shell counts of the configuration whose
contiguous lower-exclusive/upper-inclusive shells cover the range from 0
to `c` (flat boundary list `[0, ..., c]`): the multi-shell row is a list
of per-pair blocks whose blockwise sums form the single-cutoff row. The
no-coincidence hypothesis is forced by the counterexample: a zero distance
is counted by the scalar cutoff but lies in no lower-exclusive shell. -/
theorem single_cutoff_eq_shell_sum (c : ℚ) (b : List ℚ)
    (hb : 3 ≤ b.length) (hh : b.head? = some 0) (hl : b.getLast? = some c)
    (hch : List.Chain' (· ≤ ·) b)
    (P : List Atom) (m : String) (lt : List TypeKey) (pt : Option (List TypeKey))
    (ap : Bool) (lig : List Atom)
    (hq : ∀ pa ∈ P, ∀ la ∈ lig, sqDist pa la ≠ 0)
    (rowS rowM : List ℕ)
    (hS : buildRow (ccInit (some P) (.scalar c) m lt pt ap) lig = .ok rowS)
    (hM : buildRow (ccInit (some P) (.flat b) m lt pt ap) lig = .ok rowM) :
    ∃ blocks : List (List ℕ),
      rowM = blocks.flatten ∧
      rowS = blocks.map List.sum ∧
      ∀ bl ∈ blocks, bl.length = b.length - 1 := by
  match b, hb with
  | b0 :: b1 :: b2 :: rest, _ =>
  simp only [List.head?_cons, Option.some_inj] at hh
  subst hh
  set bb : List ℚ := 0 :: b1 :: b2 :: rest with hbb
  set cfgS := ccInit (some P) (.scalar c) m lt pt ap with hcfgS
  set cfgM := ccInit (some P) (.flat bb) m lt pt ap with hcfgM
  have hcutS : cfgS.cutoff = .one1d c := rfl
  have hcutM : cfgM.cutoff = .rows (bb.zip bb.tail) := rfl
  have hmaxM : cutoffMax cfgM.cutoff = c := by
    rw [hcutM]
    exact cutoffMax_zip_chain hch hl
  have hmaxS : cutoffMax cfgS.cutoff = c := rfl
  have hloc : localProtein cfgM.cutoff P lig = localProtein cfgS.cutoff P lig := by
    unfold localProtein inRangeb
    rw [hmaxM, hmaxS]
  obtain ⟨protS, molS, prdS, countsS, hpS, hmolS, hprS, hmapS, hrowS⟩ :=
    buildRow_ok_elim hS
  obtain ⟨protM, molM, prdM, countsM, hpM, hmolM, hprM, hmapM, hrowM⟩ :=
    buildRow_ok_elim hM
  have hPS : protS = P := by
    have h2 : (some P : Option (List Atom)) = some protS := hpS
    exact (Option.some_inj.mp h2).symm
  have hPM : protM = P := by
    have h2 : (some P : Option (List Atom)) = some protM := hpM
    exact (Option.some_inj.mp h2).symm
  rw [hPS] at hprS
  rw [hPM] at hprM
  have hmolEq : molM = molS := by
    have h1 : atoms_by_type lig lt m = .ok molS := hmolS
    have h2 : atoms_by_type lig lt m = .ok molM := hmolM
    rw [h1] at h2
    exact (Except.ok.injEq _ _ ▸ h2).symm
  rw [hmolEq] at hmapM
  have hprEq : prdM = prdS := by
    have h1 : atoms_by_type (localProtein cfgS.cutoff P lig)
        (resolveProtTypes pt lt) m = .ok prdS := hprS
    have h2 : atoms_by_type (localProtein cfgS.cutoff P lig)
        (resolveProtTypes pt lt) m = .ok prdM := by
      rw [← hloc]
      exact hprM
    rw [h1] at h2
    exact (Except.ok.injEq _ _ ▸ h2).symm
  rw [hprEq] at hmapM
  have hpairs : buildPairs cfgM = buildPairs cfgS := rfl
  rw [hpairs] at hmapM
  have hshellsLen : (bb.zip bb.tail).length = bb.length - 1 := by
    simp [hbb]
  have hrel : List.Forall₂ (fun y z => y = [z.sum] ∧ z.length = bb.length - 1)
      countsS countsM := by
    apply mapE_ok_ok_rel hmapS hmapM
    intro mp hmp y z hfy hgz
    unfold pairStep at hfy hgz
    cases hlk1 : prdS.lookup mp.2 with
    | none => rw [hlk1] at hfy; cases hfy
    | some pa =>
        rw [hlk1] at hfy hgz
        cases hlk2 : molS.lookup mp.1 with
        | none => rw [hlk2] at hfy; cases hfy
        | some la =>
            rw [hlk2] at hfy hgz
            have hy : y = pairCounts cfgS.cutoff pa la := by
              cases hfy; rfl
            have hz : z = pairCounts cfgM.cutoff pa la := by
              cases hgz; rfl
            have hpaP : ∀ a2 ∈ pa, a2 ∈ P := by
              rcases atoms_by_type_shape cfgS.protein_types cfgS.mode with ⟨e, he⟩ | ⟨kps, hk⟩
              · rw [he (localProtein cfgS.cutoff P lig)] at hprS
                cases hprS
              · have hd : prdS = kps.map (fun kp =>
                    (kp.1, (localProtein cfgS.cutoff P lig).filter kp.2)) := by
                  have := hk (localProtein cfgS.cutoff P lig)
                  rw [hprS] at this
                  exact (Except.ok.injEq _ _ ▸ this)
                rw [hd, lookup_map_filter] at hlk1
                cases hpr : List.lookup mp.2 kps with
                | none => rw [hpr] at hlk1; cases hlk1
                | some pr =>
                    rw [hpr] at hlk1
                    simp only [Option.map_some', Option.some_inj] at hlk1
                    intro a2 ha2
                    rw [← hlk1] at ha2
                    have := List.mem_of_mem_filter ha2
                    unfold localProtein at this
                    exact List.mem_of_mem_filter this
            have hlaL : ∀ x ∈ la, x ∈ lig := by
              rcases atoms_by_type_shape cfgS.ligand_types cfgS.mode with ⟨e, he⟩ | ⟨kps, hk⟩
              · rw [he lig] at hmolS
                cases hmolS
              · have hd : molS = kps.map (fun kp => (kp.1, lig.filter kp.2)) := by
                  have := hk lig
                  rw [hmolS] at this
                  exact (Except.ok.injEq _ _ ▸ this)
                rw [hd, lookup_map_filter] at hlk2
                cases hpr : List.lookup mp.1 kps with
                | none => rw [hpr] at hlk2; cases hlk2
                | some pr =>
                    rw [hpr] at hlk2
                    simp only [Option.map_some', Option.some_inj] at hlk2
                    intro x hx
                    rw [← hlk2] at hx
                    exact List.mem_of_mem_filter hx
            have hqs : ∀ q ∈ allSq pa la, 0 < q := by
              intro q hqm
              obtain ⟨a2, ha2, x, hx, hqe⟩ := mem_allSq hqm
              have hne : q ≠ 0 := by
                rw [hqe]
                exact hq a2 (hpaP a2 ha2) x (hlaL x hx)
              have hge : 0 ≤ q := by
                rw [hqe]
                exact sqDist_nonneg a2 x
              exact lt_of_le_of_ne hge (Ne.symm hne)
            have hzlen : (1 : ℕ) < (bb.zip bb.tail).length := by
              rw [hshellsLen]
              simp [hbb]
            constructor
            · rw [hy, hz, hcutS, hcutM]
              unfold pairCounts
              rw [pairCountsQ_one1d, pairCountsQ_multi hzlen]
              rw [countLE_eq_shell_sum hch hl rfl hqs]
            · rw [hz, hcutM]
              unfold pairCounts
              rw [pairCountsQ_multi hzlen]
              rw [List.length_map]
              exact hshellsLen
  obtain ⟨hmapEq, hlen⟩ := forall2_extract hrel
  refine ⟨countsM, hrowM, ?_, hlen⟩
  rw [hrowS, hmapEq]
  exact flatten_map_singleton

/-- Witness for the amended C4 at a concrete input. -/
theorem single_cutoff_eq_shell_sum_witness :
    buildRow cfgScalar4 [atomC001] = .ok [1] ∧
    buildRow cfgShells024 [atomC001] = .ok [1, 0] ∧
    ∃ blocks : List (List ℕ),
      [1, 0] = blocks.flatten ∧
      ([1] : List ℕ) = blocks.map List.sum ∧
      ∀ bl ∈ blocks, bl.length = ([0, 2, 4] : List ℚ).length - 1 := by
  refine ⟨by with_unfolding_all rfl, by with_unfolding_all rfl, ?_⟩
  exact single_cutoff_eq_shell_sum 4 [0, 2, 4] (by simp) rfl rfl
    (by
      simp only [List.chain'_cons, List.chain'_singleton, and_true]
      norm_num)
    [atomC000] "atomic_nums" [.num 6] none false [atomC001]
    (by
      intro pa hpa la hla
      rw [List.mem_singleton] at hpa hla
      subst hpa
      subst hla
      rw [show sqDist atomC000 atomC001 = 1 from by with_unfolding_all rfl]
      norm_num)
    [1] [1, 0] (by with_unfolding_all rfl) (by with_unfolding_all rfl)

/-- Claim C2 counterexample: for a cross-product configuration with
ligand types `[6, 7]` and protein types `[6, 7]`, `build` enumerates the
pairs with the ligand type as the outer loop and returns `[1, 0, 1, 0]`,
while the computation that enumerates protein-type outer (as the claim
asserts) returns `[1, 1, 0, 0]`; the titles `["6.6", "6.7", "7.6", "7.7"]`
follow the protein-outer order, so they do not label `build`'s columns. -/
theorem cross_product_column_order_cex :
    buildRow cfgTwoByTwo [atomC001, atomN002] = .ok [1, 0, 1, 0] ∧
    buildRowProteinOuter cfgTwoByTwo [atomC001, atomN002] = .ok [1, 1, 0, 0] ∧
    cfgTwoByTwo.titles = ["6.6", "6.7", "7.6", "7.7"] ∧
    buildRow cfgTwoByTwo [atomC001, atomN002] ≠
      buildRowProteinOuter cfgTwoByTwo [atomC001, atomN002] := by
  refine ⟨by with_unfolding_all rfl, by with_unfolding_all rfl,
    by with_unfolding_all rfl, ?_⟩
  rw [show buildRow cfgTwoByTwo [atomC001, atomN002] = .ok [1, 0, 1, 0]
      from by with_unfolding_all rfl,
    show buildRowProteinOuter cfgTwoByTwo [atomC001, atomN002] = .ok [1, 1, 0, 0]
      from by with_unfolding_all rfl]
  intro h
  cases h

/-- Claim C2 (amended): for every cross-product configuration, the columns
of `build` are ordered with the LIGAND type as the outer loop and the
protein type as the inner loop (cutoff shells innermost): the flattened
block at column offset `(i * len(protein_types) + j) * n_shells + k` holds
the shell-`k` count of the pair `(ligand_types[i], protein_types[j])`.
The titles list fixed at construction is ordered the other way around —
protein type outer, ligand type inner — so title `j * len(ligand_types)
+ i` (times `n_shells`, shell innermost, in the multi-shell case) is the
label of the pair `(protein_types[j], ligand_types[i])`; the two orders
agree only up to that transposition. -/
theorem cross_product_column_order (cfg : CCConfig)
    (hap : cfg.aligned_pairs = false) (hv : cutoffValid cfg.cutoff)
    (lig : List Atom) (row : List ℕ) (hok : buildRow cfg lig = .ok row)
    (i j : ℕ) (a b2 : TypeKey)
    (hia : cfg.ligand_types[i]? = some a)
    (hjb : cfg.protein_types[j]? = some b2) :
    ∃ prot molDict protDict pa la,
      cfg.protein = some prot ∧
      atoms_by_type lig cfg.ligand_types cfg.mode = .ok molDict ∧
      atoms_by_type (localProtein cfg.cutoff prot lig) cfg.protein_types cfg.mode
        = .ok protDict ∧
      protDict.lookup b2 = some pa ∧
      molDict.lookup a = some la ∧
      (∀ k, k < cutLen cfg.cutoff →
        row[(i * cfg.protein_types.length + j) * cutLen cfg.cutoff + k]? =
          (pairCounts cfg.cutoff pa la)[k]?) ∧
      (cutLen cfg.cutoff = 1 →
        (mkTitles cfg.ligand_types cfg.protein_types cfg.cutoff)[
            j * cfg.ligand_types.length + i]? =
          some (keyStr b2 ++ "." ++ keyStr a)) ∧
      (∀ rs, cfg.cutoff = .rows rs → 1 < rs.length → ∀ k r, rs[k]? = some r →
        (mkTitles cfg.ligand_types cfg.protein_types cfg.cutoff)[
            (j * cfg.ligand_types.length + i) * rs.length + k]? =
          some (keyStr b2 ++ "." ++ keyStr a ++ "_" ++ qStr r.1 ++ "-" ++ qStr r.2)) := by
  obtain ⟨prot, molDict, protDict, counts, hp, hmol, hprot, hmap, hrow⟩ :=
    buildRow_ok_elim hok
  have hi : i < cfg.ligand_types.length := by
    by_contra hge
    rw [List.getElem?_eq_none (by omega)] at hia
    cases hia
  have hj : j < cfg.protein_types.length := by
    by_contra hge
    rw [List.getElem?_eq_none (by omega)] at hjb
    cases hjb
  have hpairsdef : buildPairs cfg =
      cfg.ligand_types.flatMap (fun l => cfg.protein_types.map (fun p => (l, p))) := by
    unfold buildPairs
    rw [hap]
    simp
  have hpairIdx : (buildPairs cfg)[i * cfg.protein_types.length + j]? = some (a, b2) := by
    rw [hpairsdef]
    rw [flatMap_uniform_get (fun l => by rw [List.length_map]) hj hia]
    rw [List.getElem?_map, hjb]
    rfl
  obtain ⟨block, hblock, hstep⟩ := mapE_ok_get hmap hpairIdx
  have hlk : ∃ pa la, protDict.lookup b2 = some pa ∧ molDict.lookup a = some la ∧
      block = pairCounts cfg.cutoff pa la := by
    unfold pairStep at hstep
    cases h1 : protDict.lookup b2 with
    | none => rw [h1] at hstep; cases hstep
    | some pa =>
        rw [h1] at hstep
        cases h2 : molDict.lookup a with
        | none => rw [h2] at hstep; cases hstep
        | some la =>
            rw [h2] at hstep
            cases hstep
            exact ⟨pa, la, rfl, rfl, rfl⟩
  obtain ⟨pa, la, hlk1, hlk2, hblockEq⟩ := hlk
  refine ⟨prot, molDict, protDict, pa, la, hp, hmol, hprot, hlk1, hlk2, ?_, ?_, ?_⟩
  · intro k hk
    have huniform : ∀ bl ∈ counts, bl.length = cutLen cfg.cutoff := by
      intro bl hbl
      obtain ⟨mp, _, hstep2⟩ := mapE_ok_mem hmap bl hbl
      exact pairStep_ok_length hv hstep2
    rw [hrow, flatten_uniform_get huniform hk hblock, hblockEq]
  · intro h1
    unfold mkTitles
    rw [if_pos h1]
    rw [flatMap_uniform_get (fun p => by rw [List.length_map]) hi hjb]
    rw [List.getElem?_map, hia]
    rfl
  · intro rs hrs hrs1 k r hkr
    have hkrlt : k < rs.length := by
      by_contra hge
      rw [List.getElem?_eq_none (by omega)] at hkr
      cases hkr
    unfold mkTitles
    rw [hrs]
    rw [if_neg (by
      simp only [cutLen]
      omega)]
    have hidx : (j * cfg.ligand_types.length + i) * rs.length + k =
        j * (cfg.ligand_types.length * rs.length) + (i * rs.length + k) := by
      ring
    rw [hidx]
    have hinner : i * rs.length + k < cfg.ligand_types.length * rs.length := by
      calc i * rs.length + k < i * rs.length + rs.length := by omega
      _ = (i + 1) * rs.length := by ring
      _ ≤ cfg.ligand_types.length * rs.length :=
          Nat.mul_le_mul_right _ (by omega)
    rw [flatMap_uniform_get
      (fun p => by rw [length_flatMap_product]) hinner hjb]
    rw [flatMap_uniform_get (fun l => by rw [List.length_map]) hkrlt hia]
    rw [List.getElem?_map, hkr]
    rfl

/-- Witness for the amended C2 at a concrete input. -/
theorem cross_product_column_order_witness :
    cfgTwoByTwo.aligned_pairs = false ∧
    cutoffValid cfgTwoByTwo.cutoff ∧
    buildRow cfgTwoByTwo [atomC001, atomN002] = .ok [1, 0, 1, 0] ∧
    ∃ prot molDict protDict pa la,
      cfgTwoByTwo.protein = some prot ∧
      atoms_by_type [atomC001, atomN002] cfgTwoByTwo.ligand_types cfgTwoByTwo.mode
        = .ok molDict ∧
      atoms_by_type (localProtein cfgTwoByTwo.cutoff prot [atomC001, atomN002])
        cfgTwoByTwo.protein_types cfgTwoByTwo.mode = .ok protDict ∧
      protDict.lookup (.num 6) = some pa ∧
      molDict.lookup (.num 7) = some la ∧
      (∀ k, k < cutLen cfgTwoByTwo.cutoff →
        ([1, 0, 1, 0] : List ℕ)[(1 * cfgTwoByTwo.protein_types.length + 0) *
            cutLen cfgTwoByTwo.cutoff + k]? =
          (pairCounts cfgTwoByTwo.cutoff pa la)[k]?) ∧
      (cutLen cfgTwoByTwo.cutoff = 1 →
        (mkTitles cfgTwoByTwo.ligand_types cfgTwoByTwo.protein_types
            cfgTwoByTwo.cutoff)[0 * cfgTwoByTwo.ligand_types.length + 1]? =
          some (keyStr (.num 6) ++ "." ++ keyStr (.num 7))) ∧
      (∀ rs, cfgTwoByTwo.cutoff = .rows rs → 1 < rs.length →
        ∀ k r, rs[k]? = some r →
        (mkTitles cfgTwoByTwo.ligand_types cfgTwoByTwo.protein_types
            cfgTwoByTwo.cutoff)[(0 * cfgTwoByTwo.ligand_types.length + 1) *
              rs.length + k]? =
          some (keyStr (.num 6) ++ "." ++ keyStr (.num 7) ++ "_" ++
            qStr r.1 ++ "-" ++ qStr r.2)) := by
  refine ⟨rfl, trivial, by with_unfolding_all rfl, ?_⟩
  exact cross_product_column_order cfgTwoByTwo rfl trivial
    [atomC001, atomN002] [1, 0, 1, 0] (by with_unfolding_all rfl)
    1 0 (.num 7) (.num 6) rfl rfl

theorem upperAll_map_str :
    ∀ types : List String,
      upperAll (types.map .str) = some (types.map String.toUpper) := by
  intro types
  induction types with
  | nil => rfl
  | cons t ts ih =>
      simp only [List.map_cons, upperAll, ih]

theorem atoms_by_type_ad4_str (tbl : List Atom) (types : List String) :
    atoms_by_type tbl (types.map .str) "atom_types_ad4" =
      ad4Build tbl ((types.map String.toUpper).dedup) := by
  unfold atoms_by_type
  rw [if_neg (by decide), if_neg (by decide), if_pos rfl, upperAll_map_str]

theorem ad4Build_error_of_unknown (tbl : List Atom) :
    ∀ us : List String, (∃ u ∈ us, ad4_to_atomicnum u = none) →
      ∃ u ∈ us, ad4_to_atomicnum u = none ∧
        ad4Build tbl us = .error ("Unsopported atom type: " ++ u) := by
  intro us
  induction us with
  | nil => intro h; obtain ⟨u, hu, _⟩ := h; cases hu
  | cons t ts ih =>
      intro h
      cases ht : ad4_to_atomicnum t with
      | none =>
          refine ⟨t, List.mem_cons_self _ _, ht, ?_⟩
          simp only [ad4Build, ht]
      | some z =>
          have hts : ∃ u ∈ ts, ad4_to_atomicnum u = none := by
            obtain ⟨u, hu, hun⟩ := h
            rcases List.mem_cons.mp hu with hu | hu
            · rw [hu, ht] at hun
              cases hun
            · exact ⟨u, hu, hun⟩
          obtain ⟨u, hu, hun, herr⟩ := ih hts
          refine ⟨u, List.mem_cons.mpr (Or.inr hu), hun, ?_⟩
          simp only [ad4Build, ht, herr]

theorem ad4Build_ok_of_known (tbl : List Atom) :
    ∀ us : List String, (∀ u ∈ us, (ad4_to_atomicnum u).isSome) →
      ∃ out, ad4Build tbl us = .ok out ∧
        ∀ u ∈ us, ∃ z, ad4_to_atomicnum u = some z ∧
          out.lookup (.str u) = some (tbl.filter (ad4Match u z)) := by
  intro us
  induction us with
  | nil =>
      intro _
      exact ⟨[], rfl, fun u hu => absurd hu (List.not_mem_nil u)⟩
  | cons t ts ih =>
      intro hall
      cases ht : ad4_to_atomicnum t with
      | none =>
          have := hall t (List.mem_cons_self _ _)
          rw [ht] at this
          cases this
      | some z =>
          obtain ⟨rest, hrest, hlookr⟩ :=
            ih (fun u hu => hall u (List.mem_cons.mpr (Or.inr hu)))
          refine ⟨(.str t, tbl.filter (ad4Match t z)) :: rest, ?_, ?_⟩
          · simp only [ad4Build, ht, hrest]
          · intro v hv
            by_cases hvt : v = t
            · subst hvt
              refine ⟨z, ht, ?_⟩
              simp [List.lookup]
            · have hv2 : v ∈ ts := by
                rcases List.mem_cons.mp hv with hv | hv
                · exact absurd hv hvt
                · exact hv
              obtain ⟨z2, hz2, hl2⟩ := hlookr v hv2
              refine ⟨z2, hz2, ?_⟩
              simp only [List.lookup]
              rw [show ((TypeKey.str v == TypeKey.str t) = false) from by
                simp [hvt]]
              exact hl2

/-- Claim C7: in force-field mode, the vocabulary has exactly 20 keys;
a request containing any key that is unknown after uppercase normalization
makes `atoms_by_type` fail with an error naming an offending key, while a
request of only recognized keys succeeds, with every key (even one whose
constraints match zero atoms) mapped to its — possibly empty — filtered
sub-table rather than an error. -/
theorem ad4_unknown_key_error_known_key_empty (tbl : List Atom)
    (types : List String) :
    ad4List.length = 20 ∧
    ((∃ t ∈ types, ad4_to_atomicnum t.toUpper = none) →
      ∃ t ∈ types, ad4_to_atomicnum t.toUpper = none ∧
        atoms_by_type tbl (types.map .str) "atom_types_ad4" =
          .error ("Unsopported atom type: " ++ t.toUpper)) ∧
    ((∀ t ∈ types, (ad4_to_atomicnum t.toUpper).isSome) →
      ∃ out, atoms_by_type tbl (types.map .str) "atom_types_ad4" = .ok out ∧
        ∀ t ∈ types, ∃ z, ad4_to_atomicnum t.toUpper = some z ∧
          out.lookup (.str t.toUpper) = some (tbl.filter (ad4Match t.toUpper z))) := by
  refine ⟨rfl, ?_, ?_⟩
  · intro h
    obtain ⟨t, ht, htu⟩ := h
    have hin : ∃ u ∈ (types.map String.toUpper).dedup, ad4_to_atomicnum u = none :=
      ⟨t.toUpper, List.mem_dedup.mpr (List.mem_map_of_mem _ ht), htu⟩
    obtain ⟨u, hu, hun, herr⟩ := ad4Build_error_of_unknown tbl _ hin
    obtain ⟨t2, ht2, ht2u⟩ := List.mem_map.mp (List.mem_dedup.mp hu)
    refine ⟨t2, ht2, by rw [ht2u]; exact hun, ?_⟩
    rw [atoms_by_type_ad4_str, ht2u]
    exact herr
  · intro hall
    have hall2 : ∀ u ∈ (types.map String.toUpper).dedup,
        (ad4_to_atomicnum u).isSome := by
      intro u hu
      obtain ⟨t2, ht2, ht2u⟩ := List.mem_map.mp (List.mem_dedup.mp hu)
      rw [← ht2u]
      exact hall t2 ht2
    obtain ⟨out, hout, hlook⟩ := ad4Build_ok_of_known tbl _ hall2
    refine ⟨out, by rw [atoms_by_type_ad4_str]; exact hout, ?_⟩
    intro t ht
    exact hlook t.toUpper (List.mem_dedup.mpr (List.mem_map_of_mem _ ht))

/-- Witness for C7 at concrete inputs: the unknown key "Zz" raises the
naming error, while the recognized keys "C" and "N" on a one-carbon table
yield a dictionary in which "N" maps to a valid empty subset. -/
theorem ad4_unknown_key_error_known_key_empty_witness :
    (∃ t ∈ ["Zz"], ad4_to_atomicnum t.toUpper = none ∧
      atoms_by_type [] ([.str "Zz"]) "atom_types_ad4" =
        .error ("Unsopported atom type: " ++ t.toUpper)) ∧
    (∃ out, atoms_by_type [atomC000] ([.str "C", .str "N"]) "atom_types_ad4"
        = .ok out ∧
      ∀ t ∈ ["C", "N"], ∃ z, ad4_to_atomicnum t.toUpper = some z ∧
        out.lookup (.str t.toUpper) =
          some ([atomC000].filter (ad4Match t.toUpper z))) := by
  constructor
  · exact (ad4_unknown_key_error_known_key_empty [] ["Zz"]).2.1
      ⟨"Zz", List.mem_singleton_self _, by with_unfolding_all decide⟩
  · exact (ad4_unknown_key_error_known_key_empty [atomC000] ["C", "N"]).2.2
      (by with_unfolding_all decide)
